import Mathlib

/-!
Verification development for the note-posting bot
(`models/article.py`, `services/note_poster_service.py`, `main.py`).

Strings are modelled as lists of characters (`Str`).  All functions are
structurally recursive (recursions over a string use its length as fuel,
with fuel-adequacy lemmas), so every definition evaluates by kernel
reduction on concrete inputs.
-/

/-- A Python string, modelled as a list of characters. -/
abbrev Str := List Char

/-- The characters removed by Python `str.strip()` (ASCII whitespace set;
the Unicode extras are irrelevant to the inputs this program handles). -/
def isSpace (c : Char) : Bool :=
  decide (c = ' ' ∨ c = '\t' ∨ c = '\n' ∨ c = '\r' ∨ c = '\x0b' ∨ c = '\x0c')

/-- Python `str.strip()`: drop leading and trailing whitespace. -/
def strip (s : Str) : Str :=
  ((s.dropWhile isSpace).reverse.dropWhile isSpace).reverse

/-- Erase every whitespace character.  Used to state the reconstruction
property of block segmentation: two texts are "equivalent with whitespace
normalized" when they agree after erasing whitespace. -/
def noSpace (s : Str) : Str := s.filter fun c => !isSpace c

/-- Is the character `'#'`?  (Bool-valued, for `takeWhile`/`dropWhile`.) -/
def hashB (c : Char) : Bool := decide (c = '#')

/-- Is the character a newline? -/
def nlB (c : Char) : Bool := decide (c = '\n')

/-- Is the character not a newline?  (Regex `.` matches exactly these.) -/
def notNL (c : Char) : Bool := !nlB c

/-- Split `s` at the first (leftmost) occurrence of `pat` as a contiguous
substring: `findSub pat s = some (b, r)` means `s = b ++ pat ++ r` and no
occurrence of `pat` starts earlier.  Models Python's substring search. -/
def findSub (pat : Str) : Str → Option (Str × Str)
  | [] => if pat = [] then some ([], []) else none
  | c :: cs =>
    if pat.isPrefixOf (c :: cs) then some ([], (c :: cs).drop pat.length)
    else
      match findSub pat cs with
      | some (b, r) => some (c :: b, r)
      | none => none

/-- Python `s.replace(pat, "", 1)` for nonempty `pat`: remove the first
substring occurrence of `pat`; `s` unchanged when `pat` does not occur.
(`note_poster_service.py:51` uses this to delete the matched title text.) -/
def removeFirst : Str → Str → Str
  | [], _ => []
  | c :: cs, pat =>
    if pat.isPrefixOf (c :: cs) then (c :: cs).drop pat.length
    else c :: removeFirst cs pat

/-- The opening fence text of the pattern in `remove_markdown_block`
(`note_poster_service.py:29`): three backticks, `markdown`, newline. -/
def mdOpen : Str := ("```markdown\n").toList

/-- The closing fence text `"` ++ "```" ++ `"` of the same pattern. -/
def mdClose : Str := ("```").toList

/-- Fuelled worker for `removeMarkdownBlock`.  One step of
`re.sub(r"```markdown\n(.*?)```", r"\1", text, flags=re.DOTALL)`:
the leftmost match starts at the first occurrence of the opening fence,
its non-greedy body ends at the first following closing fence, the match
is replaced by its body, and scanning resumes after the match.  If the
opening fence occurs but no closing fence follows it, no position of the
text can match (any later opening fence would itself contain backticks
after the first opening), so the text is returned unchanged. -/
def rmbF : Nat → Str → Str
  | 0, s => s
  | fuel + 1, s =>
    match findSub mdOpen s with
    | none => s
    | some (b, r) =>
      match findSub mdClose r with
      | none => s
      | some (m, rest) => b ++ m ++ rmbF fuel rest

/-- `remove_markdown_block` (`note_poster_service.py:27-30`). -/
def removeMarkdownBlock (s : Str) : Str := rmbF s.length s

/-- Does a match of `re.search(r"^# (.+)", ·, re.MULTILINE)` begin at
position 0 of `s`?  If so, return group 1: the maximal run of
non-newline characters after `"# "`, which must be nonempty. -/
def titleAt : Str → Option Str
  | c1 :: c2 :: r =>
    if c1 = '#' ∧ c2 = ' ' then
      if r.takeWhile notNL = [] then none else some (r.takeWhile notNL)
    else none
  | _ => none

/-- Scan for the leftmost title match.  `atLS` records whether position 0
of the current suffix is a line start of the whole text (`^` in MULTILINE
mode matches exactly at the text start and after each newline).  Returns
`(b, g)` where `b` is the text before the match and `g` is group 1. -/
def searchTitleAux : Bool → Str → Option (Str × Str)
  | _, [] => none
  | atLS, c :: cs =>
    match (if atLS then titleAt (c :: cs) else none) with
    | some g => some ([], g)
    | none => (searchTitleAux (nlB c) cs).map fun p => (c :: p.1, p.2)

/-- `re.search(r"^# (.+)", t, re.MULTILINE)` (`note_poster_service.py:47`). -/
def searchTitle (t : Str) : Option (Str × Str) := searchTitleAux true t

/-- Does a match of `^(#{1,3}) (.+)` begin at position 0 of `s`?  The
greedy bounded repetition with backtracking succeeds exactly when the
full run of leading `'#'` has length 1..3 and is followed by a space and
a nonempty line remainder.  Returns `(level, group2, rest)` where `rest`
is the text after the match (the remainder of `s` from the line end). -/
def headAt (s : Str) : Option (Nat × Str × Str) :=
  match s.dropWhile hashB with
  | c :: r =>
    if c = ' ' ∧ 1 ≤ (s.takeWhile hashB).length ∧ (s.takeWhile hashB).length ≤ 3 then
      if r.takeWhile notNL = [] then none
      else some ((s.takeWhile hashB).length, r.takeWhile notNL, r.dropWhile notNL)
    else none
  | _ => none

/-- Scan for the leftmost heading match, as in `searchTitleAux`.
Returns `(before, level, group2, rest)`. -/
def findHeadingAux : Bool → Str → Option (Str × Nat × Str × Str)
  | _, [] => none
  | atLS, c :: cs =>
    match (if atLS then headAt (c :: cs) else none) with
    | some (n, g, r) => some ([], n, g, r)
    | none => (findHeadingAux (nlB c) cs).map fun p => (c :: p.1, p.2)

/-- The first match of `heading_pattern = re.compile(r"^(#{1,3}) (.+)",
re.MULTILINE)` in a text (`note_poster_service.py:63`). -/
def findHeading (s : Str) : Option (Str × Nat × Str × Str) := findHeadingAux true s

/-- One section dict produced by `parse_markdown`: `{"type": ...,
"content": ...}` with `type` either `"paragraph"` or `"heading1..3"`. -/
structure MdBlock where
  type : String
  content : Str
deriving DecidableEq

/-- Fuelled worker for `mdSections`: the section-extraction loop of
`parse_markdown` (`note_poster_service.py:60-86`).  Each iteration takes
the next heading match; the span before it is emitted as a stripped
paragraph when nonempty; the heading is emitted as
`"#"*level ++ " " ++ group2.strip()`; the final span is emitted last. -/
def mdSectionsF : Nat → Str → List MdBlock
  | 0, _ => []
  | fuel + 1, s =>
    match findHeading s with
    | none => if strip s = [] then [] else [⟨"paragraph", strip s⟩]
    | some (b, n, g, r) =>
      (if strip b = [] then [] else [⟨"paragraph", strip b⟩]) ++
        ⟨"heading" ++ toString n, List.replicate n '#' ++ ' ' :: strip g⟩ :: mdSectionsF fuel r

/-- The ordered list of sections `parse_markdown` builds from a body. -/
def mdSections (s : Str) : List MdBlock := mdSectionsF (s.length + 1) s

/-- Concatenation of the texts of a block list, in emission order. -/
def joinContents : List MdBlock → Str
  | [] => []
  | b :: bs => b.content ++ joinContents bs

/-- `parse_markdown` (`note_poster_service.py:32-89`): preprocess with
`remove_markdown_block`; find the first `^# (.+)` line; if found, the
title is group 1 stripped and the body is the text with the first
substring occurrence of group 0 (`"# " ++ g`) removed, then stripped; if
not found the title is the placeholder and the body is the whole
preprocessed text (not stripped).  The body is then segmented. -/
def parseMarkdown (md : Str) : Str × List MdBlock :=
  let t := removeMarkdownBlock md
  match searchTitle t with
  | some (_, g) => (strip g, mdSections (strip (removeFirst t ('#' :: ' ' :: g))))
  | none => (("無題の記事").toList, mdSections t)

/-- Split a text into its lines (separator `'\n'`, separators dropped,
no entry for the empty tail after a final newline).  Spec-side notion
used to state which inputs contain a title line. -/
def consHead (c : Char) : List Str → List Str
  | [] => [[c]]
  | l :: ls => (c :: l) :: ls

/-- The lines of a text. -/
def linesOf : Str → List Str
  | [] => []
  | c :: cs => if nlB c then [] :: linesOf cs else consHead c (linesOf cs)

/-- Spec-side test: does this (newline-free) line begin with a single
`'#'`, a space, and at least one further character? -/
def titleLineB : Str → Bool
  | c1 :: c2 :: _ :: _ => decide (c1 = '#') && decide (c2 = ' ')
  | _ => false

/-- `models/article.py` `Article`: the five stored fields plus
`improved_content`.  Timestamps are abstracted to `Nat`. -/
structure Article where
  title : Str
  content : Str
  status : String
  created_at : Nat
  published_at : Option Nat
  improved_content : Option Str
deriving DecidableEq

/-- `Article.__init__` (`article.py:9-34`): fields are stored as passed,
with `created_at = created_at or datetime.now()` (a passed timestamp is
always truthy, so `none` becomes `now`).  No validation is performed. -/
def articleInit (now : Nat) (title content : Str) (status : String)
    (created_at : Option Nat) (published_at : Option Nat)
    (improved_content : Option Str) : Article :=
  { title := title, content := content, status := status,
    created_at := created_at.getD now, published_at := published_at,
    improved_content := improved_content }

/-- The dictionary consumed by `Article.from_dict`: `title` and `content`
are required, the rest are optional (`data.get`). -/
structure ArticleDict where
  title : Str
  content : Str
  status : Option String
  created_at : Option Nat
  published_at : Option Nat
  improved_content : Option Str
deriving DecidableEq

/-- `Article.from_dict` (`article.py:51-68`): `status` defaults to
`"draft"`, timestamps pass through (ISO parsing abstracted), and the
constructor is called with the results. -/
def fromDict (now : Nat) (d : ArticleDict) : Article :=
  articleInit now d.title d.content (d.status.getD "draft")
    d.created_at d.published_at d.improved_content

/-- The invariant stated by the spec for `Article`:
`published_at` is non-null iff `status == "published"`. -/
def invariantHolds (a : Article) : Prop :=
  a.published_at ≠ none ↔ a.status = "published"

/-- The fallible page interactions of `post_article`
(`note_poster_service.py:111-205`), in program order.  Each one is a
bounded-wait UI operation that raises on failure (a DriverError); they
all sit inside the `try` block.  `launch`/`new_context`/`new_page`
precede the `try` and are not bounded-wait page operations, so they are
modelled as non-failing. -/
inductive Op where
  | gotoLogin | waitEmail | waitPassword | waitIdleLogin
  | fillEmail | fillPassword | clickLogin | waitIdleAfterLogin
  | gotoNew | waitIdleNew | fillTitle | enterTitle
  | insertSection (i : Nat)
  | clickSave | waitIdleSave
  | isVisiblePublish | clickPublish | waitPaid | clickPaid | waitIdlePublish
deriving DecidableEq

/-- The operations executed before `post_article` has completed a
successful draft save, when the parsed body has `k` sections: login
steps, editor steps, one clipboard-paste insertion per section, then the
save click and its wait (`note_poster_service.py:118-176`). -/
def preSaveOps (k : Nat) : List Op :=
  [Op.gotoLogin, Op.waitEmail, Op.waitPassword, Op.waitIdleLogin,
   Op.fillEmail, Op.fillPassword, Op.clickLogin, Op.waitIdleAfterLogin,
   Op.gotoNew, Op.waitIdleNew, Op.fillTitle, Op.enterTitle] ++
  (List.range k).map Op.insertSection ++ [Op.clickSave, Op.waitIdleSave]

/-- Test double for the browser: which operations succeed, and whether
the publish button is visible after the draft save. -/
structure DriverEnv where
  ok : Op → Bool
  visible : Bool

/-- Outcome of `post_article`: the returned Bool, the article as left by
the call, and whether the `finally` teardown (`context.close()`,
`browser.close()`) ran. -/
structure PostResult where
  ok : Bool
  article : Article
  toreDown : Bool
deriving DecidableEq

/-- The content selection at `note_poster_service.py:104-106`:
`article.improved_content if article.improved_content else
article.content` — Python truthiness, so `None` and `""` both fall back
to `content`. -/
def chooseContent (a : Article) : Str :=
  match a.improved_content with
  | some s => if s = [] then a.content else s
  | none => a.content

/-- `post_article` (`note_poster_service.py:91-205`).  Control flow: if
any pre-save operation fails, the outer `except` returns `False` with
the article untouched.  Otherwise the draft save succeeded; the inner
`try` checks the publish button, and only if the visibility check, the
two clicks and the two waits all succeed is the article mutated to
`published` with `published_at = now` and `True` returned.  Any failure
inside the publish block is caught, logged, and falls through to
`return True` with the article untouched.  The `finally` teardown runs
on every path. -/
def postArticle (env : DriverEnv) (now : Nat) (a : Article) : PostResult :=
  if (preSaveOps (parseMarkdown (chooseContent a)).2.length).all env.ok then
    if env.ok Op.isVisiblePublish && env.visible && env.ok Op.clickPublish &&
        env.ok Op.waitPaid && env.ok Op.clickPaid && env.ok Op.waitIdlePublish then
      { ok := true,
        article := { a with status := "published", published_at := some now },
        toreDown := true }
    else { ok := true, article := a, toreDown := true }
  else { ok := false, article := a, toreDown := true }

/-! ### Lemmas about substring search and fence stripping -/

/-- `findSub` really splits its input at an occurrence of the pattern. -/
theorem findSub_decomp {pat : Str} :
    ∀ {s b r : Str}, findSub pat s = some (b, r) → s = b ++ pat ++ r := by
  intro s
  induction s with
  | nil =>
    intro b r h
    simp only [findSub] at h
    split at h
    · rename_i hp
      simp only [Option.some.injEq, Prod.mk.injEq] at h
      obtain ⟨hb, hr⟩ := h
      subst hb; subst hr; simp [hp]
    · simp at h
  | cons c cs ih =>
    intro b r h
    simp only [findSub] at h
    split at h
    · rename_i hp
      simp only [Option.some.injEq, Prod.mk.injEq] at h
      obtain ⟨hb, hr⟩ := h
      subst hb; subst hr
      have h1 : pat <+: (c :: cs) := List.isPrefixOf_iff_prefix.mp hp
      have h2 := List.prefix_iff_eq_append.mp h1
      simpa using h2.symm
    · cases hfs : findSub pat cs with
      | none => rw [hfs] at h; simp at h
      | some br =>
        obtain ⟨b1, r1⟩ := br
        rw [hfs] at h
        simp only [Option.some.injEq, Prod.mk.injEq] at h
        obtain ⟨hb, hr⟩ := h
        subst hb; subst hr
        have := ih hfs
        simp [this]

theorem mdOpen_ne_nil : mdOpen ≠ [] := by decide

theorem mdOpen_length : mdOpen.length = 12 := by decide

theorem mdClose_length : mdClose.length = 3 := by decide

theorem findSub_nil_of_ne {pat : Str} (h : pat ≠ []) : findSub pat [] = none := by
  simp [findSub, h]

theorem rmbF_nil : ∀ f, rmbF f [] = [] := by
  intro f
  cases f with
  | zero => rfl
  | succ n => simp [rmbF, findSub_nil_of_ne mdOpen_ne_nil]

/-- The fuelled fence stripper is fuel-insensitive above the input length. -/
theorem rmbF_congr : ∀ (f1 : Nat) {f2 : Nat} {s : Str},
    s.length ≤ f1 → s.length ≤ f2 → rmbF f1 s = rmbF f2 s := by
  intro f1
  induction f1 with
  | zero =>
    intro f2 s h1 _
    have hs : s = [] := List.eq_nil_of_length_eq_zero (Nat.le_zero.mp h1)
    subst hs
    rw [rmbF_nil, rmbF_nil]
  | succ n ih =>
    intro f2 s h1 h2
    cases hs : findSub mdOpen s with
    | none =>
      cases f2 with
      | zero => simp [rmbF, hs]
      | succ m => simp [rmbF, hs]
    | some br =>
      obtain ⟨b, r⟩ := br
      cases hc : findSub mdClose r with
      | none =>
        cases f2 with
        | zero =>
          have h0 : s = [] := List.eq_nil_of_length_eq_zero (Nat.le_zero.mp h2)
          subst h0
          rw [findSub_nil_of_ne mdOpen_ne_nil] at hs
          cases hs
        | succ m => simp [rmbF, hs, hc]
      | some mr =>
        obtain ⟨m, rest⟩ := mr
        have d1 := findSub_decomp hs
        have d2 := findSub_decomp hc
        have hlen : rest.length + 15 ≤ s.length := by
          subst d1; subst d2
          simp only [List.length_append, mdOpen_length, mdClose_length]
          omega
        cases f2 with
        | zero => omega
        | succ m2 =>
          simp only [rmbF, hs, hc]
          have hr1 : rest.length ≤ n := by omega
          have hr2 : rest.length ≤ m2 := by omega
          rw [ih hr1 hr2]

/-- `remove_markdown_block` when the opening fence does not occur. -/
theorem rmb_no_open {s : Str} (h : findSub mdOpen s = none) :
    removeMarkdownBlock s = s := by
  unfold removeMarkdownBlock
  cases hl : s.length with
  | zero => rfl
  | succ n => simp [rmbF, h]

/-- `remove_markdown_block` when an opening fence occurs but no closing
fence follows it: no position can match and the text is unchanged. -/
theorem rmb_no_close {s b r : Str} (h1 : findSub mdOpen s = some (b, r))
    (h2 : findSub mdClose r = none) : removeMarkdownBlock s = s := by
  have d1 := findSub_decomp h1
  have hlen : 12 ≤ s.length := by
    subst d1; simp only [List.length_append, mdOpen_length]; omega
  obtain ⟨k, hk⟩ : ∃ k, s.length = k + 1 := ⟨s.length - 1, by omega⟩
  unfold removeMarkdownBlock
  rw [hk]
  simp [rmbF, h1, h2]

/-- One `re.sub` step: the leftmost wrapped region is replaced by its
interior and scanning continues after the closing fence. -/
theorem rmb_step {s b r m rest : Str} (h1 : findSub mdOpen s = some (b, r))
    (h2 : findSub mdClose r = some (m, rest)) :
    removeMarkdownBlock s = b ++ m ++ removeMarkdownBlock rest := by
  have d1 := findSub_decomp h1
  have d2 := findSub_decomp h2
  have hlen : rest.length + 15 ≤ s.length := by
    subst d1; subst d2
    simp only [List.length_append, mdOpen_length, mdClose_length]
    omega
  obtain ⟨k, hk⟩ : ∃ k, s.length = k + 1 := ⟨s.length - 1, by omega⟩
  unfold removeMarkdownBlock
  rw [hk]
  simp only [rmbF, h1, h2]
  rw [rmbF_congr k (by omega) (le_refl rest.length)]

/-! ### Lemmas about `strip` and whitespace erasure -/

theorem noSpace_append (a b : Str) : noSpace (a ++ b) = noSpace a ++ noSpace b := by
  simp [noSpace]

theorem noSpace_dropWhile (s : Str) : noSpace (s.dropWhile isSpace) = noSpace s := by
  induction s with
  | nil => rfl
  | cons c cs ih =>
    by_cases h : isSpace c
    · rw [List.dropWhile_cons_of_pos h, ih]
      simp [noSpace, List.filter_cons, h]
    · rw [List.dropWhile_cons_of_neg h]

theorem noSpace_reverse (s : Str) : noSpace s.reverse = (noSpace s).reverse := by
  simp [noSpace]

theorem noSpace_strip (s : Str) : noSpace (strip s) = noSpace s := by
  unfold strip
  rw [noSpace_reverse, noSpace_dropWhile, noSpace_reverse, List.reverse_reverse,
    noSpace_dropWhile]

theorem strip_eq_nil_iff {s : Str} : strip s = [] ↔ noSpace s = [] := by
  constructor
  · intro h
    have := noSpace_strip s
    rw [h] at this
    exact this.symm
  · intro h
    have hall : ∀ c ∈ s, isSpace c := by
      intro c hc
      have := List.filter_eq_nil_iff.mp h c hc
      simpa using this
    have hdw : s.dropWhile isSpace = [] := List.dropWhile_eq_nil_iff.mpr hall
    unfold strip
    rw [hdw]
    rfl

/-! ### Lemmas about heading matches and section extraction -/

/-- A heading match at position 0 decomposes the text as
`"#"*n ++ " " ++ group2 ++ rest` with `1 ≤ n ≤ 3` and `group2` nonempty. -/
theorem headAt_spec {s : Str} {n : Nat} {g r : Str} (h : headAt s = some (n, g, r)) :
    s = List.replicate n '#' ++ ' ' :: g ++ r ∧ 1 ≤ n ∧ n ≤ 3 ∧ g ≠ [] := by
  unfold headAt at h
  cases hd : s.dropWhile hashB with
  | nil => rw [hd] at h; simp at h
  | cons c r0 =>
    rw [hd] at h
    simp only at h
    split at h
    · rename_i hcond
      obtain ⟨hc, hn1, hn3⟩ := hcond
      split at h
      · simp at h
      · rename_i hg
        simp only [Option.some.injEq, Prod.mk.injEq] at h
        obtain ⟨hn, hgg, hr⟩ := h
        subst hn; subst hgg; subst hr; subst hc
        refine ⟨?_, hn1, hn3, hg⟩
        have hrep : s.takeWhile hashB = List.replicate (s.takeWhile hashB).length '#' := by
          apply List.eq_replicate_of_mem
          intro b hb
          have := List.mem_takeWhile_imp hb
          simpa [hashB] using this
        have hr0 : r0.takeWhile notNL ++ r0.dropWhile notNL = r0 :=
          List.takeWhile_append_dropWhile notNL r0
        calc s = s.takeWhile hashB ++ s.dropWhile hashB :=
              (List.takeWhile_append_dropWhile hashB s).symm
          _ = s.takeWhile hashB ++ ' ' :: r0 := by rw [hd]
          _ = s.takeWhile hashB ++ ' ' :: (r0.takeWhile notNL ++ r0.dropWhile notNL) := by
              rw [hr0]
          _ = List.replicate (s.takeWhile hashB).length '#' ++
                ' ' :: r0.takeWhile notNL ++ r0.dropWhile notNL := by
              rw [← hrep]; simp
    · simp at h

/-- Decomposition produced by the leftmost-heading scan. -/
theorem findHeadingAux_spec :
    ∀ {s : Str} {atLS : Bool} {b : Str} {n : Nat} {g r : Str},
    findHeadingAux atLS s = some (b, n, g, r) →
    s = b ++ List.replicate n '#' ++ ' ' :: g ++ r ∧ 1 ≤ n ∧ n ≤ 3 ∧ g ≠ [] := by
  intro s
  induction s with
  | nil => intro atLS b n g r h; simp [findHeadingAux] at h
  | cons c cs ih =>
    intro atLS b n g r h
    simp only [findHeadingAux] at h
    by_cases ha : atLS
    · rw [if_pos ha] at h
      cases hm : headAt (c :: cs) with
      | some x =>
        obtain ⟨n0, g0, r0⟩ := x
        rw [hm] at h
        simp only [Option.some.injEq, Prod.mk.injEq] at h
        obtain ⟨hb, hn, hg, hr⟩ := h
        subst hb; subst hn; subst hg; subst hr
        have := headAt_spec hm
        simpa using this
      | none =>
        rw [hm] at h
        simp only [Option.map_eq_some'] at h
        obtain ⟨p, hp, hmk⟩ := h
        obtain ⟨b1, n1, g1, r1⟩ := p
        simp only [Prod.mk.injEq] at hmk
        obtain ⟨hb, hn, hg, hr⟩ := hmk
        subst hb; subst hn; subst hg; subst hr
        obtain ⟨hdec, hn1, hn3, hgne⟩ := ih hp
        refine ⟨?_, hn1, hn3, hgne⟩
        subst hdec
        simp
    · rw [if_neg ha] at h
      simp only [Option.map_eq_some'] at h
      obtain ⟨p, hp, hmk⟩ := h
      obtain ⟨b1, n1, g1, r1⟩ := p
      simp only [Prod.mk.injEq] at hmk
      obtain ⟨hb, hn, hg, hr⟩ := hmk
      subst hb; subst hn; subst hg; subst hr
      obtain ⟨hdec, hn1, hn3, hgne⟩ := ih hp
      refine ⟨?_, hn1, hn3, hgne⟩
      subst hdec
      simp

/-- Decomposition for `findHeading` together with the strict length
decrease of the remainder, used for fuel adequacy. -/
theorem findHeading_spec {s b : Str} {n : Nat} {g r : Str}
    (h : findHeading s = some (b, n, g, r)) :
    s = b ++ List.replicate n '#' ++ ' ' :: g ++ r ∧ 1 ≤ n ∧ n ≤ 3 ∧ g ≠ [] :=
  findHeadingAux_spec h

theorem findHeading_len {s b : Str} {n : Nat} {g r : Str}
    (h : findHeading s = some (b, n, g, r)) : r.length + 2 ≤ s.length := by
  obtain ⟨hdec, hn1, _, hg⟩ := findHeading_spec h
  have : g.length ≥ 1 := by
    cases g with
    | nil => exact absurd rfl hg
    | cons a as => simp
  subst hdec
  simp only [List.length_append, List.length_replicate, List.length_cons]
  omega

/-- The fuelled section extractor is fuel-insensitive above the length. -/
theorem mdSectionsF_congr : ∀ (f1 : Nat) {f2 : Nat} {s : Str},
    s.length < f1 → s.length < f2 → mdSectionsF f1 s = mdSectionsF f2 s := by
  intro f1
  induction f1 with
  | zero => intro f2 s h1 _; omega
  | succ n ih =>
    intro f2 s h1 h2
    cases f2 with
    | zero => omega
    | succ m2 =>
      cases hf : findHeading s with
      | none => simp [mdSectionsF, hf]
      | some x =>
        obtain ⟨b, k, g, r⟩ := x
        have hlen := findHeading_len hf
        have hr1 : r.length < n := by omega
        have hr2 : r.length < m2 := by omega
        simp only [mdSectionsF, hf]
        rw [ih hr1 hr2]

/-- `mdSections` when the body contains no heading line. -/
theorem msec_none {s : Str} (h : findHeading s = none) :
    mdSections s = if strip s = [] then [] else [⟨"paragraph", strip s⟩] := by
  unfold mdSections
  simp [mdSectionsF, h]

/-- `mdSections` at a heading match: emit the preceding span (if its
stripped text is nonempty), the reconstructed heading, then recurse. -/
theorem msec_some {s b : Str} {n : Nat} {g r : Str}
    (h : findHeading s = some (b, n, g, r)) :
    mdSections s = (if strip b = [] then [] else [⟨"paragraph", strip b⟩]) ++
      ⟨"heading" ++ toString n, List.replicate n '#' ++ ' ' :: strip g⟩ :: mdSections r := by
  have hlen := findHeading_len h
  have hr1 : r.length < s.length := by omega
  have hr2 : r.length < r.length + 1 := by omega
  show mdSectionsF (s.length + 1) s = _
  simp only [mdSectionsF, h]
  rw [mdSectionsF_congr s.length hr1 hr2]
  rfl

/-! ### Global properties of section extraction -/

theorem noSpace_cons_pos {c : Char} (h : isSpace c = true) (x : Str) :
    noSpace (c :: x) = noSpace x := by
  simp [noSpace, List.filter_cons, h]

theorem noSpace_cons_neg {c : Char} (h : isSpace c = false) (x : Str) :
    noSpace (c :: x) = c :: noSpace x := by
  simp [noSpace, List.filter_cons, h]

theorem noSpace_replicate (n : Nat) :
    noSpace (List.replicate n '#') = List.replicate n '#' := by
  induction n with
  | zero => rfl
  | succ k ih =>
    rw [List.replicate_succ, noSpace_cons_neg (by decide), ih, ← List.replicate_succ]

/-- Whitespace-erased reconstruction: concatenating the emitted block
texts in emission order and erasing whitespace yields the body with its
whitespace erased (strong induction on the body length). -/
theorem mdSections_noSpace_aux : ∀ N : Nat, ∀ s : Str, s.length ≤ N →
    noSpace (joinContents (mdSections s)) = noSpace s := by
  intro N
  induction N with
  | zero =>
    intro s hs
    have h0 : s = [] := List.eq_nil_of_length_eq_zero (Nat.le_zero.mp hs)
    subst h0
    decide
  | succ N ih =>
    intro s hs
    cases hf : findHeading s with
    | none =>
      rw [msec_none hf]
      by_cases h0 : strip s = []
      · rw [if_pos h0]
        have h1 := strip_eq_nil_iff.mp h0
        simp only [joinContents]
        rw [h1]
        rfl
      · rw [if_neg h0]
        simp only [joinContents]
        rw [List.append_nil]
        exact noSpace_strip s
    | some x =>
      obtain ⟨b, n, g, r⟩ := x
      obtain ⟨hdec, hn1, hn3, hg⟩ := findHeading_spec hf
      have hlen := findHeading_len hf
      have IH := ih r (by omega)
      rw [msec_some hf]
      have hrhs : noSpace s = noSpace b ++ (List.replicate n '#' ++ noSpace g ++ noSpace r) := by
        rw [hdec]
        rw [noSpace_append, noSpace_append, noSpace_cons_pos (by decide), noSpace_append,
          noSpace_replicate]
        simp [List.append_assoc]
      by_cases h0 : strip b = []
      · rw [if_pos h0]
        have h1 := strip_eq_nil_iff.mp h0
        simp only [List.nil_append, joinContents]
        rw [noSpace_append, noSpace_append, noSpace_cons_pos (by decide), noSpace_replicate,
          noSpace_strip, IH, hrhs, h1]
        simp [List.append_assoc]
      · rw [if_neg h0]
        simp only [List.cons_append, List.nil_append, joinContents]
        rw [noSpace_append, noSpace_append, noSpace_append, noSpace_cons_pos (by decide),
          noSpace_replicate, noSpace_strip, noSpace_strip, IH, hrhs]

theorem mdSections_noSpace (s : Str) :
    noSpace (joinContents (mdSections s)) = noSpace s :=
  mdSections_noSpace_aux s.length s le_rfl

/-- No emitted block has empty text. -/
theorem mdSections_ne_nil_aux : ∀ N : Nat, ∀ s : Str, s.length ≤ N →
    ∀ blk ∈ mdSections s, blk.content ≠ [] := by
  intro N
  induction N with
  | zero =>
    intro s hs blk hm
    have h0 : s = [] := List.eq_nil_of_length_eq_zero (Nat.le_zero.mp hs)
    subst h0
    have hne : findHeading ([] : Str) = none := rfl
    have hstrip : strip ([] : Str) = [] := rfl
    rw [msec_none hne, if_pos hstrip] at hm
    simp at hm
  | succ N ih =>
    intro s hs blk hm
    cases hf : findHeading s with
    | none =>
      rw [msec_none hf] at hm
      by_cases h0 : strip s = []
      · rw [if_pos h0] at hm; simp at hm
      · rw [if_neg h0] at hm
        simp at hm
        rw [hm]
        exact h0
    | some x =>
      obtain ⟨b, n, g, r⟩ := x
      have hlen := findHeading_len hf
      rw [msec_some hf] at hm
      rw [List.mem_append, List.mem_cons] at hm
      rcases hm with hm | hm | hm
      · by_cases h0 : strip b = []
        · rw [if_pos h0] at hm; simp at hm
        · rw [if_neg h0] at hm
          simp at hm
          rw [hm]
          exact h0
      · rw [hm]
        simp
      · exact ih r (by omega) blk hm

theorem mdSections_content_ne_nil {s : Str} {blk : MdBlock}
    (h : blk ∈ mdSections s) : blk.content ≠ [] :=
  mdSections_ne_nil_aux s.length s le_rfl blk h

/-- Every emitted block is a paragraph or a heading of level 1..3. -/
theorem mdSections_types_aux : ∀ N : Nat, ∀ s : Str, s.length ≤ N →
    ∀ blk ∈ mdSections s,
    blk.type = "paragraph" ∨ ∃ n, 1 ≤ n ∧ n ≤ 3 ∧ blk.type = "heading" ++ toString n := by
  intro N
  induction N with
  | zero =>
    intro s hs blk hm
    have h0 : s = [] := List.eq_nil_of_length_eq_zero (Nat.le_zero.mp hs)
    subst h0
    have hne : findHeading ([] : Str) = none := rfl
    have hstrip : strip ([] : Str) = [] := rfl
    rw [msec_none hne, if_pos hstrip] at hm
    simp at hm
  | succ N ih =>
    intro s hs blk hm
    cases hf : findHeading s with
    | none =>
      rw [msec_none hf] at hm
      by_cases h0 : strip s = []
      · rw [if_pos h0] at hm; simp at hm
      · rw [if_neg h0] at hm
        simp at hm
        rw [hm]
        exact Or.inl rfl
    | some x =>
      obtain ⟨b, n, g, r⟩ := x
      obtain ⟨hdec, hn1, hn3, hg⟩ := findHeading_spec hf
      have hlen := findHeading_len hf
      rw [msec_some hf] at hm
      rw [List.mem_append, List.mem_cons] at hm
      rcases hm with hm | hm | hm
      · by_cases h0 : strip b = []
        · rw [if_pos h0] at hm; simp at hm
        · rw [if_neg h0] at hm
          simp at hm
          rw [hm]
          exact Or.inl rfl
      · rw [hm]
        exact Or.inr ⟨n, hn1, hn3, rfl⟩
      · exact ih r (by omega) blk hm

theorem mdSections_heading_types {s : Str} {blk : MdBlock} (h : blk ∈ mdSections s) :
    blk.type = "paragraph" ∨ ∃ n, 1 ≤ n ∧ n ≤ 3 ∧ blk.type = "heading" ++ toString n :=
  mdSections_types_aux s.length s le_rfl blk h

/-! ### Title search: relating the scanner to the lines of the text -/

theorem nlB_iff {c : Char} : nlB c = true ↔ c = '\n' := by simp [nlB]

theorem nlB_eq_false {c : Char} (h : ¬nlB c = true) : notNL c = true := by
  simp [notNL]
  simpa using h

theorem linesOf_cons_eq : ∀ t : Str, t ≠ [] →
    linesOf t = t.takeWhile notNL :: linesOf ((t.dropWhile notNL).drop 1) := by
  intro t
  induction t with
  | nil => intro h; exact absurd rfl h
  | cons c cs ih =>
    intro _
    by_cases hc : nlB c
    · have hnot : notNL c = false := by simp [notNL, hc]
      simp only [linesOf, hc, if_true, List.takeWhile_cons, List.dropWhile_cons, hnot]
      simp
    · have hnot : notNL c = true := nlB_eq_false hc
      simp only [linesOf, hc, if_false, List.takeWhile_cons, List.dropWhile_cons, hnot]
      cases cs with
      | nil => simp [consHead, linesOf]
      | cons d ds =>
        rw [ih (by simp)]
        simp [consHead]

theorem tailLines_eq (c : Char) (cs : Str) :
    linesOf (((c :: cs).dropWhile notNL).drop 1) =
      if nlB c then linesOf cs else (linesOf cs).drop 1 := by
  by_cases hc : nlB c
  · have hnot : notNL c = false := by simp [notNL, hc]
    rw [List.dropWhile_cons]
    simp [hnot, hc]
  · have hnot : notNL c = true := nlB_eq_false hc
    rw [List.dropWhile_cons]
    simp only [hnot, if_true, hc, if_false]
    cases cs with
    | nil => simp [linesOf]
    | cons d ds =>
      rw [linesOf_cons_eq (d :: ds) (by simp)]
      simp

/-- A title match begins at position 0 exactly when the first line of the
text begins with `"# "` and a further character. -/
theorem titleAt_none_iff : ∀ t : Str,
    titleAt t = none ↔ titleLineB (t.takeWhile notNL) = false := by
  intro t
  cases t with
  | nil => simp [titleAt, titleLineB]
  | cons c1 t1 =>
    cases t1 with
    | nil =>
      by_cases h1 : notNL c1 <;> simp [titleAt, titleLineB, List.takeWhile_cons, h1]
    | cons c2 r =>
      simp only [titleAt]
      by_cases h12 : c1 = '#' ∧ c2 = ' '
      · obtain ⟨h1, h2⟩ := h12
        subst h1; subst h2
        rw [if_pos ⟨rfl, rfl⟩]
        have hn1 : notNL '#' = true := by decide
        have hn2 : notNL ' ' = true := by decide
        rw [List.takeWhile_cons, List.takeWhile_cons]
        simp only [hn1, hn2, if_true]
        by_cases hg : r.takeWhile notNL = []
        · rw [if_pos hg, hg]
          simp [titleLineB]
        · rw [if_neg hg]
          cases hgg : r.takeWhile notNL with
          | nil => exact absurd hgg hg
          | cons a as => simp [titleLineB]
      · rw [if_neg h12]
        apply iff_of_true rfl
        by_cases ha : notNL c1
        · by_cases hb : notNL c2
          · rw [List.takeWhile_cons, List.takeWhile_cons]
            simp only [ha, hb, if_true]
            cases hgg : r.takeWhile notNL with
            | nil => simp [titleLineB]
            | cons a as =>
              simp only [titleLineB]
              rcases Decidable.not_and_iff_or_not.mp h12 with h | h
              · simp [h]
              · simp [h]
          · rw [List.takeWhile_cons, List.takeWhile_cons]
            simp [ha, hb, titleLineB]
        · rw [List.takeWhile_cons]
          simp [ha, titleLineB]

/-- If some element of `u` fails `p`, `takeWhile` never reaches `v`. -/
theorem takeWhile_append_of_not : ∀ (u : Str) (v : Str) (p : Char → Bool),
    (∃ x ∈ u, p x = false) → (u ++ v).takeWhile p = u.takeWhile p := by
  intro u
  induction u with
  | nil =>
    intro v p h
    obtain ⟨x, hx, _⟩ := h
    simp at hx
  | cons c u1 ih =>
    intro v p h
    by_cases hc : p c
    · rw [List.cons_append, List.takeWhile_cons, List.takeWhile_cons]
      simp only [hc, if_true]
      obtain ⟨x, hx, hpx⟩ := h
      rcases List.mem_cons.mp hx with hx | hx
      · subst hx; rw [hc] at hpx; cases hpx
      · rw [ih v p ⟨x, hx, hpx⟩]
    · have hcf : p c = false := by revert hc; cases p c <;> simp
      rw [List.cons_append, List.takeWhile_cons, List.takeWhile_cons]
      simp [hcf]

/-- Unfolding steps for the title scanner. -/
theorem searchTitleAux_false_cons (c : Char) (cs : Str) :
    searchTitleAux false (c :: cs) =
      (searchTitleAux (nlB c) cs).map fun p => (c :: p.1, p.2) := rfl

theorem searchTitleAux_true_cons_none {c : Char} {cs : Str}
    (h : titleAt (c :: cs) = none) :
    searchTitleAux true (c :: cs) =
      (searchTitleAux (nlB c) cs).map fun p => (c :: p.1, p.2) := by
  simp [searchTitleAux, h]

theorem searchTitleAux_true_cons_some {c : Char} {cs g : Str}
    (h : titleAt (c :: cs) = some g) :
    searchTitleAux true (c :: cs) = some ([], g) := by
  simp [searchTitleAux, h]

/-- The scanner finds no title match exactly when no line eligible from
the current position matches (all lines for a line start, all but the
first partial line otherwise). -/
theorem searchTitleAux_none_iff : ∀ t : Str, ∀ atLS : Bool,
    (searchTitleAux atLS t = none ↔
      ∀ l ∈ (if atLS then linesOf t else (linesOf t).drop 1), titleLineB l = false) := by
  intro t
  induction t with
  | nil => intro atLS; cases atLS <;> simp [searchTitleAux, linesOf]
  | cons c cs ih =>
    intro atLS
    cases atLS with
    | false =>
      show searchTitleAux false (c :: cs) = none ↔
        ∀ l ∈ (linesOf (c :: cs)).drop 1, titleLineB l = false
      rw [searchTitleAux_false_cons, Option.map_eq_none']
      rw [linesOf_cons_eq (c :: cs) (by simp)]
      show searchTitleAux (nlB c) cs = none ↔
        ∀ l ∈ linesOf ((List.dropWhile notNL (c :: cs)).drop 1), titleLineB l = false
      rw [tailLines_eq c cs]
      exact ih (nlB c)
    | true =>
      cases hT : titleAt (c :: cs) with
      | some g =>
        show searchTitleAux true (c :: cs) = none ↔
          ∀ l ∈ linesOf (c :: cs), titleLineB l = false
        rw [searchTitleAux_true_cons_some hT]
        apply iff_of_false (by simp)
        intro hall
        have hmem : (c :: cs).takeWhile notNL ∈ linesOf (c :: cs) := by
          rw [linesOf_cons_eq (c :: cs) (by simp)]
          exact List.mem_cons_self _ _
        have hfalse := hall _ hmem
        have hne : ¬ titleAt (c :: cs) = none := by rw [hT]; simp
        rw [titleAt_none_iff] at hne
        rw [hfalse] at hne
        exact hne rfl
      | none =>
        show searchTitleAux true (c :: cs) = none ↔
          ∀ l ∈ linesOf (c :: cs), titleLineB l = false
        rw [searchTitleAux_true_cons_none hT, Option.map_eq_none']
        have hfl : titleLineB ((c :: cs).takeWhile notNL) = false :=
          (titleAt_none_iff (c :: cs)).mp hT
        rw [linesOf_cons_eq (c :: cs) (by simp), List.forall_mem_cons]
        rw [tailLines_eq c cs]
        constructor
        · intro h
          exact ⟨hfl, (ih (nlB c)).mp h⟩
        · intro h
          exact (ih (nlB c)).mpr h.2

/-- The first element surviving `dropWhile` fails the predicate. -/
theorem dropWhile_head_false {p : Char → Bool} : ∀ (l : Str) {a : Char} {as : Str},
    l.dropWhile p = a :: as → p a = false := by
  intro l
  induction l with
  | nil => intro a as h; simp at h
  | cons c cs ih =>
    intro a as h
    rw [List.dropWhile_cons] at h
    split at h
    · exact ih h
    · rename_i hc
      have h1 : c = a := by injection h
      subst h1
      revert hc
      cases p c <;> simp

/-- Full characterisation of a successful title search: the text splits
as `b ++ "# " ++ g ++ r` where `g` is the nonempty newline-free group,
the match extends to the end of its line, `b` consists of whole lines
(it is empty or ends with a newline), and no line inside `b` (eligible
for `^` from the current scanning state) begins with `"# "` plus text —
i.e. the match is the leftmost one. -/
theorem searchTitleAux_some_spec : ∀ t : Str, ∀ atLS : Bool, ∀ b g : Str,
    searchTitleAux atLS t = some (b, g) →
    (∃ r, t = b ++ '#' :: ' ' :: g ++ r ∧ (r = [] ∨ ∃ r2, r = '\n' :: r2)) ∧
    g ≠ [] ∧ (∀ c ∈ g, c ≠ '\n') ∧
    (b = [] → atLS = true) ∧
    (b = [] ∨ ∃ b2, b = b2 ++ ['\n']) ∧
    (∀ l ∈ (if atLS then linesOf b else (linesOf b).drop 1), titleLineB l = false) := by
  intro t
  induction t with
  | nil => intro atLS b g h; simp [searchTitleAux] at h
  | cons c cs ih =>
    intro atLS b g h
    cases atLS with
    | true =>
      cases hT : titleAt (c :: cs) with
      | some g0 =>
        rw [searchTitleAux_true_cons_some hT] at h
        simp only [Option.some.injEq, Prod.mk.injEq] at h
        obtain ⟨hb, hg⟩ := h
        subst hb; subst hg
        cases cs with
        | nil => simp [titleAt] at hT
        | cons c2 r0 =>
          simp only [titleAt] at hT
          split at hT
          · rename_i h12
            obtain ⟨hc1, hc2⟩ := h12
            subst hc1; subst hc2
            split at hT
            · simp at hT
            · rename_i hgg
              simp only [Option.some.injEq] at hT
              refine ⟨⟨r0.dropWhile notNL, ?_, ?_⟩, ?_, ?_, ?_, ?_, ?_⟩
              · simp only [List.nil_append]
                rw [← hT]
                rw [show ('#' :: ' ' :: r0.takeWhile notNL ++ r0.dropWhile notNL : Str)
                  = '#' :: ' ' :: (r0.takeWhile notNL ++ r0.dropWhile notNL) from rfl]
                rw [List.takeWhile_append_dropWhile]
              · cases hd : r0.dropWhile notNL with
                | nil => exact Or.inl rfl
                | cons a as =>
                  right
                  refine ⟨as, ?_⟩
                  have hhead := dropWhile_head_false r0 hd
                  have ha : a = '\n' := by
                    revert hhead
                    simp [notNL, nlB]
                  subst ha
                  rfl
              · rw [← hT]; exact hgg
              · intro x hx
                rw [← hT] at hx
                have := List.mem_takeWhile_imp hx
                revert this
                simp [notNL, nlB]
              · intro _; rfl
              · exact Or.inl rfl
              · intro l hl
                simp [linesOf] at hl
          · simp at hT
      | none =>
        rw [searchTitleAux_true_cons_none hT] at h
        simp only [Option.map_eq_some'] at h
        obtain ⟨p, hp, hpe⟩ := h
        obtain ⟨b1, g1⟩ := p
        simp only [Prod.mk.injEq] at hpe
        obtain ⟨hb, hg⟩ := hpe
        subst hb; subst hg
        obtain ⟨⟨r, hdec, hr⟩, hgne, hgnl, hbe, hbnl, hlines⟩ := ih (nlB c) b1 g1 hp
        refine ⟨⟨r, ?_, hr⟩, hgne, hgnl, ?_, ?_, ?_⟩
        · rw [hdec]; simp [List.append_assoc]
        · intro h0; cases h0
        · rcases hbnl with hb1 | ⟨b2, hb2⟩
          · have hc : nlB c = true := hbe hb1
            have hceq : c = '\n' := nlB_iff.mp hc
            subst hb1
            right
            exact ⟨[], by rw [hceq]; rfl⟩
          · right
            exact ⟨c :: b2, by rw [hb2]; rfl⟩
        · show ∀ l ∈ linesOf (c :: b1), titleLineB l = false
          by_cases hc : nlB c
          · intro l hl
            rw [show linesOf (c :: b1) = [] :: linesOf b1 from by simp [linesOf, hc]] at hl
            rcases List.mem_cons.mp hl with hl | hl
            · rw [hl]; rfl
            · have hlines1 := hlines
              rw [if_pos hc] at hlines1
              exact hlines1 l hl
          · have hb1ne : b1 ≠ [] := by
              intro h0
              exact hc (hbe h0)
            intro l hl
            rw [linesOf_cons_eq (c :: b1) (by simp)] at hl
            rcases List.mem_cons.mp hl with hl | hl
            · rcases hbnl with h0 | ⟨b2, hb2⟩
              · exact absurd h0 hb1ne
              · have hmemNL : ∃ x ∈ (c :: b1), notNL x = false := by
                  refine ⟨'\n', ?_, by decide⟩
                  rw [hb2]; simp
                have htw := takeWhile_append_of_not (c :: b1) ('#' :: ' ' :: g1 ++ r) notNL hmemNL
                have hfl : titleLineB ((c :: cs).takeWhile notNL) = false :=
                  (titleAt_none_iff (c :: cs)).mp hT
                rw [show (c :: cs : Str) = (c :: b1) ++ ('#' :: ' ' :: g1 ++ r) from by
                  rw [hdec]; simp [List.append_assoc]] at hfl
                rw [htw] at hfl
                rw [hl]
                exact hfl
            · rw [tailLines_eq c b1, if_neg hc] at hl
              have hlines1 := hlines
              rw [if_neg hc] at hlines1
              exact hlines1 l hl
    | false =>
      rw [searchTitleAux_false_cons] at h
      simp only [Option.map_eq_some'] at h
      obtain ⟨p, hp, hpe⟩ := h
      obtain ⟨b1, g1⟩ := p
      simp only [Prod.mk.injEq] at hpe
      obtain ⟨hb, hg⟩ := hpe
      subst hb; subst hg
      obtain ⟨⟨r, hdec, hr⟩, hgne, hgnl, hbe, hbnl, hlines⟩ := ih (nlB c) b1 g1 hp
      refine ⟨⟨r, ?_, hr⟩, hgne, hgnl, ?_, ?_, ?_⟩
      · rw [hdec]; simp [List.append_assoc]
      · intro h0; cases h0
      · rcases hbnl with hb1 | ⟨b2, hb2⟩
        · have hc : nlB c = true := hbe hb1
          have hceq : c = '\n' := nlB_iff.mp hc
          subst hb1
          right
          exact ⟨[], by rw [hceq]; rfl⟩
        · right
          exact ⟨c :: b2, by rw [hb2]; rfl⟩
      · show ∀ l ∈ (linesOf (c :: b1)).drop 1, titleLineB l = false
        by_cases hc : nlB c
        · intro l hl
          rw [show linesOf (c :: b1) = [] :: linesOf b1 from by simp [linesOf, hc]] at hl
          simp only [List.drop_one, List.tail_cons] at hl
          have hlines1 := hlines
          rw [if_pos hc] at hlines1
          exact hlines1 l hl
        · intro l hl
          rw [linesOf_cons_eq (c :: b1) (by simp), tailLines_eq c b1, if_neg hc] at hl
          have hlines1 := hlines
          rw [if_neg hc] at hlines1
          have hl2 : l ∈ (linesOf b1).drop 1 := hl
          exact hlines1 l hl2

/-! ### Unfolding equations for `parseMarkdown` and `postArticle` -/

theorem parseMarkdown_some {md b g : Str}
    (h : searchTitle (removeMarkdownBlock md) = some (b, g)) :
    parseMarkdown md =
      (strip g, mdSections (strip (removeFirst (removeMarkdownBlock md) ('#' :: ' ' :: g)))) := by
  simp [parseMarkdown, h]

theorem parseMarkdown_none {md : Str}
    (h : searchTitle (removeMarkdownBlock md) = none) :
    parseMarkdown md = (("無題の記事").toList, mdSections (removeMarkdownBlock md)) := by
  simp [parseMarkdown, h]

/-- The `finally` teardown runs on every control path of `post_article`. -/
theorem postArticle_toreDown (env : DriverEnv) (now : Nat) (a : Article) :
    (postArticle env now a).toreDown = true := by
  unfold postArticle
  split
  · split <;> rfl
  · rfl

/-- A failing operation before the save makes `post_article` return
`False` with the article untouched (outer `except` path). -/
theorem postArticle_preSave_fail {env : DriverEnv} {now : Nat} {a : Article}
    (h : (preSaveOps (parseMarkdown (chooseContent a)).2.length).all env.ok = false) :
    postArticle env now a = ⟨false, a, true⟩ := by
  unfold postArticle
  rw [if_neg (by simp [h])]

/-- After a successful save, `post_article` returns `True` whatever the
publish phase does. -/
theorem postArticle_ok_of_save {env : DriverEnv} {now : Nat} {a : Article}
    (h : (preSaveOps (parseMarkdown (chooseContent a)).2.length).all env.ok = true) :
    (postArticle env now a).ok = true := by
  unfold postArticle
  rw [if_pos h]
  split <;> rfl

/-- After a successful save with the publish button not visible, the
article is returned untouched with result `True`. -/
theorem postArticle_draft {env : DriverEnv} {now : Nat} {a : Article}
    (h : (preSaveOps (parseMarkdown (chooseContent a)).2.length).all env.ok = true)
    (hv : env.visible = false) :
    postArticle env now a = ⟨true, a, true⟩ := by
  unfold postArticle
  rw [if_pos h, if_neg (by simp [hv])]

/-- `post_article` either returns the article unchanged or installs
`status = "published"` together with `published_at = some now`. -/
theorem postArticle_article_cases (env : DriverEnv) (now : Nat) (a : Article) :
    (postArticle env now a).article = a ∨
    (postArticle env now a).article =
      { a with status := "published", published_at := some now } := by
  unfold postArticle
  split
  · split
    · right; rfl
    · left; rfl
  · left; rfl

/-! ### Claim theorems -/

/-- Claim C1, counterexample.  On the input `"# T\n# T"` the title `"T"`
is extracted from the first line, the first occurrence of the matched
text `"# T"` is removed, but the identical second line survives and is
emitted as a heading block whose text is exactly the title line — so
"the title line does not reappear in the text of any emitted block" is
false as stated. -/
theorem title_line_reappears :
    parseMarkdown (("# T\n# T").toList) =
      (("T").toList, [⟨"heading1", ("# T").toList⟩]) ∧
    ∃ blk ∈ (parseMarkdown (("# T\n# T").toList)).2,
      blk.content = ("# T").toList := by
  constructor <;> decide

/-- Claim C1 (amended): for every input whose fence-preprocessed text
contains a line beginning with `"# "` followed by at least one
character, `parse_markdown` returns as title the stripped trailing text
`g` of the first such line (the leftmost `^# (.+)` match: the text
splits as `b ++ "# " ++ g ++ r` with `g` newline-free extending to the
line end and no earlier line of `b` matching), and the body it segments
is the preprocessed text with the first *substring* occurrence of the
matched text `"# " ++ g` removed (not necessarily the matched line),
then stripped.  The title line may reappear in emitted blocks. -/
theorem title_extraction_amended (md b g : Str)
    (h : searchTitle (removeMarkdownBlock md) = some (b, g)) :
    (parseMarkdown md).1 = strip g ∧
    (parseMarkdown md).2 =
      mdSections (strip (removeFirst (removeMarkdownBlock md) ('#' :: ' ' :: g))) ∧
    (∃ r, removeMarkdownBlock md = b ++ '#' :: ' ' :: g ++ r ∧
      (r = [] ∨ ∃ r2, r = '\n' :: r2)) ∧
    g ≠ [] ∧ (∀ c ∈ g, c ≠ '\n') ∧
    (∀ l ∈ linesOf b, titleLineB l = false) := by
  obtain ⟨hex, hgne, hgnl, _, _, hlines⟩ :=
    searchTitleAux_some_spec (removeMarkdownBlock md) true b g h
  have hp := parseMarkdown_some h
  refine ⟨by rw [hp], by rw [hp], hex, hgne, hgnl, ?_⟩
  intro l hl
  exact hlines l hl

/-- Witness for the amended C1 at the input `"# Hi\nbody"`. -/
theorem title_extraction_amended_witness :
    (parseMarkdown (("# Hi\nbody").toList)).1 = strip (("Hi").toList) :=
  (title_extraction_amended (("# Hi\nbody").toList) [] (("Hi").toList) (by decide)).1

/-- Claim C2: in the driver model (each bounded-wait page operation of
`post_article` may raise; they all sit inside the `try`), the teardown
runs on every exit path, and if any operation before a completed save
fails then `post_article` returns `False` with the article exactly as it
was on entry (no mutation of `status` or `published_at`). -/
theorem post_article_pre_save_failure :
    (∀ (env : DriverEnv) (now : Nat) (a : Article),
      (postArticle env now a).toreDown = true) ∧
    (∀ (env : DriverEnv) (now : Nat) (a : Article),
      (preSaveOps (parseMarkdown (chooseContent a)).2.length).all env.ok = false →
      postArticle env now a = ⟨false, a, true⟩) :=
  ⟨postArticle_toreDown, fun _ _ _ h => postArticle_preSave_fail h⟩

/-- Witness for C2: a run in which every operation fails. -/
theorem post_article_pre_save_failure_witness :
    postArticle ⟨fun _ => false, false⟩ 0
        ⟨("t").toList, ("x").toList, "draft", 0, none, none⟩ =
      ⟨false, ⟨("t").toList, ("x").toList, "draft", 0, none, none⟩, true⟩ :=
  post_article_pre_save_failure.2 ⟨fun _ => false, false⟩ 0
    ⟨("t").toList, ("x").toList, "draft", 0, none, none⟩ (by decide)

/-- Claim C3: once every operation through the save has succeeded,
`post_article` returns `True` no matter what the publish phase does; and
if the publish control is not visible the article is returned untouched
(its `status` and `published_at` are exactly those on entry, so a
`"draft"` article stays `"draft"`). -/
theorem post_article_save_only_success :
    (∀ (env : DriverEnv) (now : Nat) (a : Article),
      (preSaveOps (parseMarkdown (chooseContent a)).2.length).all env.ok = true →
      (postArticle env now a).ok = true) ∧
    (∀ (env : DriverEnv) (now : Nat) (a : Article),
      (preSaveOps (parseMarkdown (chooseContent a)).2.length).all env.ok = true →
      env.visible = false →
      postArticle env now a = ⟨true, a, true⟩) :=
  ⟨fun _ _ _ h => postArticle_ok_of_save h,
   fun _ _ _ h hv => postArticle_draft h hv⟩

/-- Witness for C3: all operations succeed, publish button invisible. -/
theorem post_article_save_only_success_witness :
    postArticle ⟨fun _ => true, false⟩ 0
        ⟨("t").toList, ("x").toList, "draft", 0, none, none⟩ =
      ⟨true, ⟨("t").toList, ("x").toList, "draft", 0, none, none⟩, true⟩ :=
  post_article_save_only_success.2 ⟨fun _ => true, false⟩ 0
    ⟨("t").toList, ("x").toList, "draft", 0, none, none⟩ (by decide) rfl

/-- Claim C4, counterexample.  With two wrapped regions, `re.sub`
strips both: the claim predicts the second region survives untouched,
but the output is `"AxB"`, not `"Ax```markdown\nB```"`. -/
theorem fence_second_region_stripped :
    removeMarkdownBlock (("```markdown\nA```x```markdown\nB```").toList) =
      ("AxB").toList ∧
    removeMarkdownBlock (("```markdown\nA```x```markdown\nB```").toList) ≠
      ("Ax```markdown\nB```").toList := by
  constructor <;> decide

/-- Claim C4 (amended): the preprocessing strips *every*
`"```markdown\n ... ```"` wrapped region, scanning left to right: at the
leftmost opening fence with a following closing fence, the region's
interior is kept, the fences are dropped, and the stripper recurses on
the text after the closing fence (replacements are not rescanned). -/
theorem fence_stripping_all_regions (s b r m rest : Str)
    (h1 : findSub mdOpen s = some (b, r))
    (h2 : findSub mdClose r = some (m, rest)) :
    removeMarkdownBlock s = b ++ m ++ removeMarkdownBlock rest ∧
    s = b ++ mdOpen ++ m ++ mdClose ++ rest := by
  refine ⟨rmb_step h1 h2, ?_⟩
  have d1 := findSub_decomp h1
  have d2 := findSub_decomp h2
  rw [d1, d2]
  simp [List.append_assoc]

/-- Witness for the amended C4 at a two-region input. -/
theorem fence_stripping_all_regions_witness :
    removeMarkdownBlock (("```markdown\nA```x```markdown\nB```").toList) =
      [] ++ ("A").toList ++ removeMarkdownBlock (("x```markdown\nB```").toList) :=
  (fence_stripping_all_regions (("```markdown\nA```x```markdown\nB```").toList)
    [] (("A```x```markdown\nB```").toList) (("A").toList)
    (("x```markdown\nB```").toList) (by decide) (by decide)).1

/-- Claim C5, counterexample.  The constructor performs no validation:
`Article(title, content, status="published")` is reachable through the
public constructor and has `status == "published"` with
`published_at is None`, violating the invariant. -/
theorem article_invariant_not_enforced :
    ¬ invariantHolds (articleInit 0 [] [] "published" none none none) := by
  unfold invariantHolds articleInit
  decide

/-- Claim C5 (amended): the constructor and `from_dict` store `status`
and `published_at` unvalidated, so they establish the invariant exactly
when their arguments already satisfy it; and `post_article` preserves
the invariant — it either leaves the article unchanged or sets
`status = "published"` and a non-null `published_at` together. -/
theorem article_invariant_preservation :
    (∀ (now : Nat) (t c : Str) (st : String) (ca pa : Option Nat) (ic : Option Str),
      ((pa ≠ none) ↔ st = "published") →
      invariantHolds (articleInit now t c st ca pa ic)) ∧
    (∀ (now : Nat) (d : ArticleDict),
      ((d.published_at ≠ none) ↔ d.status.getD "draft" = "published") →
      invariantHolds (fromDict now d)) ∧
    (∀ (env : DriverEnv) (now : Nat) (a : Article),
      invariantHolds a → invariantHolds (postArticle env now a).article) := by
  refine ⟨?_, ?_, ?_⟩
  · intro now t c st ca pa ic h
    exact h
  · intro now d h
    exact h
  · intro env now a h
    rcases postArticle_article_cases env now a with hc | hc
    · rw [hc]; exact h
    · rw [hc]
      simp [invariantHolds]

/-- Witness for the amended C5: a default draft article. -/
theorem article_invariant_preservation_witness :
    invariantHolds (articleInit 0 [] [] "draft" none none none) :=
  article_invariant_preservation.1 0 [] [] "draft" none none none (by decide)

/-- Claim C6: concatenating the emitted block texts in emission order
reconstructs the body up to whitespace: erasing whitespace from the
concatenation yields exactly the whitespace-erased body, for every body.
In particular no non-whitespace content is dropped, duplicated or
reordered. -/
theorem blocks_reconstruct_body :
    ∀ s : Str, noSpace (joinContents (mdSections s)) = noSpace s :=
  mdSections_noSpace

/-- Claim C7: every emitted non-paragraph block is a heading of level
1..3 (a line with four or more `#` is never emitted as a heading), and
on `"#### Not A Real Heading\ntext"` the parser returns the placeholder
title and one paragraph block holding the entire text. -/
theorem heading_levels_bounded :
    (∀ (s : Str) (blk : MdBlock), blk ∈ mdSections s →
      blk.type = "paragraph" ∨
      ∃ n, 1 ≤ n ∧ n ≤ 3 ∧ blk.type = "heading" ++ toString n) ∧
    parseMarkdown (("#### Not A Real Heading\ntext").toList) =
      (("無題の記事").toList,
        [⟨"paragraph", ("#### Not A Real Heading\ntext").toList⟩]) :=
  ⟨fun _ _ h => mdSections_heading_types h, by decide⟩

/-- Witness for C7 at the body `"## x"`. -/
theorem heading_levels_bounded_witness :
    (⟨"heading2", ("## x").toList⟩ : MdBlock).type = "paragraph" ∨
    ∃ n, 1 ≤ n ∧ n ≤ 3 ∧
      (⟨"heading2", ("## x").toList⟩ : MdBlock).type = "heading" ++ toString n :=
  heading_levels_bounded.1 (("## x").toList) ⟨"heading2", ("## x").toList⟩ (by decide)

/-- Claim C8, counterexample.  The input `"```markdown\nhello```"` has
no line beginning with `"# "`, and the parser does return the
placeholder title — but the body it segments is the fence-stripped text
`"hello"`, not the entire input text as the claim states. -/
theorem fenced_body_not_entire_input :
    (parseMarkdown (("```markdown\nhello```").toList)).1 = ("無題の記事").toList ∧
    (parseMarkdown (("```markdown\nhello```").toList)).2 =
      [⟨"paragraph", ("hello").toList⟩] ∧
    (parseMarkdown (("```markdown\nhello```").toList)).2 ≠
      mdSections (("```markdown\nhello```").toList) := by
  refine ⟨by decide, by decide, by decide⟩

/-- Claim C8 (amended): for every input whose *fence-preprocessed* text
has no line beginning with `"# "` followed by a character,
`parse_markdown` returns the fixed placeholder title and segments the
entire preprocessed text as the body; the missing title is never an
error. -/
theorem missing_title_placeholder (md : Str)
    (h : ∀ l ∈ linesOf (removeMarkdownBlock md), titleLineB l = false) :
    parseMarkdown md =
      (("無題の記事").toList, mdSections (removeMarkdownBlock md)) := by
  apply parseMarkdown_none
  exact (searchTitleAux_none_iff (removeMarkdownBlock md) true).mpr (fun l hl => h l hl)

/-- Witness for the amended C8 at the input `"hello"`. -/
theorem missing_title_placeholder_witness :
    parseMarkdown (("hello").toList) =
      (("無題の記事").toList, mdSections (removeMarkdownBlock (("hello").toList))) :=
  missing_title_placeholder (("hello").toList) (by decide)

/-- Claim C9: no emitted block has empty text; a span whose stripped
text is empty produces zero paragraph blocks, both between headings
(the heading is emitted with nothing before it) and at the end of the
body (a whitespace-only remainder yields no block at all). -/
theorem no_empty_blocks :
    (∀ (s : Str) (blk : MdBlock), blk ∈ mdSections s → blk.content ≠ []) ∧
    (∀ (s b : Str) (n : Nat) (g r : Str),
      findHeading s = some (b, n, g, r) → strip b = [] →
      mdSections s =
        ⟨"heading" ++ toString n, List.replicate n '#' ++ ' ' :: strip g⟩ ::
          mdSections r) ∧
    (∀ s : Str, findHeading s = none → strip s = [] → mdSections s = []) := by
  refine ⟨fun _ _ h => mdSections_content_ne_nil h, ?_, ?_⟩
  · intro s b n g r hf h0
    rw [msec_some hf, if_pos h0, List.nil_append]
  · intro s hf h0
    rw [msec_none hf, if_pos h0]

/-- Witness for C9 at the body `"x"`. -/
theorem no_empty_blocks_witness :
    (⟨"paragraph", ("x").toList⟩ : MdBlock).content ≠ [] :=
  no_empty_blocks.1 (("x").toList) ⟨"paragraph", ("x").toList⟩ (by decide)

/-- Claim C10: the Python truthiness test makes `post_article` treat an
empty `improved_content` exactly like an absent one: the content that is
parsed and posted is `article.content` unless `improved_content` is
present and nonempty, and the run outcome for an article with empty
`improved_content` equals that for the same article with none. -/
theorem improved_content_selection :
    (∀ a : Article, a.improved_content = none → chooseContent a = a.content) ∧
    (∀ a : Article, a.improved_content = some [] → chooseContent a = a.content) ∧
    (∀ (a : Article) (s : Str),
      a.improved_content = some s → s ≠ [] → chooseContent a = s) ∧
    (∀ (env : DriverEnv) (now : Nat) (a : Article),
      a.improved_content = some [] →
      (postArticle env now a).ok =
        (postArticle env now { a with improved_content := none }).ok) := by
  refine ⟨?_, ?_, ?_, ?_⟩
  · intro a h
    simp [chooseContent, h]
  · intro a h
    simp [chooseContent, h]
  · intro a s h hs
    simp [chooseContent, h, hs]
  · intro env now a h
    have hc : chooseContent a = chooseContent { a with improved_content := none } := by
      simp [chooseContent, h]
    unfold postArticle
    rw [hc]
    split
    · split <;> rfl
    · rfl

/-- Witness for C10: an article with empty improved content. -/
theorem improved_content_selection_witness :
    chooseContent ⟨[], ("c").toList, "draft", 0, none, some []⟩ = ("c").toList :=
  improved_content_selection.2.1 ⟨[], ("c").toList, "draft", 0, none, some []⟩ rfl
